import Mathlib

/-!
Shallow embedding of `src/callbacks.py` (a small collection of Keras
training-loop callbacks) and verification of the specification's claims.

Modelling conventions:
* Python floats are embedded as `ℚ` (exact arithmetic).
* Python ints are embedded as `ℤ`.
* A callback instance together with the host model's `stop_training` flag is
  a Lean structure; every lifecycle hook is a function from state to state.
  Hooks only ever assign `True` to `model.stop_training`, so the flag is a
  `Bool` field of the state.
* Python exceptions (IndexError from list indexing / `pop`, and
  ZeroDivisionError from division by zero) are embedded with
  `Except String`, the string being the exception class name.
* The `logs` mapping passed by the host is represented by the value of
  `logs.get('loss')`, assumed present and numeric (the spec's implicit
  precondition); the unused `batch` positional argument of the hooks is
  dropped.  `print`/`warnings` side effects are ignored.
-/

namespace Callbacks

/-- Decidable equality for `Except`, so that concrete runs of the embedded
hooks can be checked by `decide`. -/
instance {ε α : Type} [DecidableEq ε] [DecidableEq α] : DecidableEq (Except ε α) :=
  fun x y =>
    match x, y with
    | .ok a, .ok b =>
      if h : a = b then .isTrue (congrArg Except.ok h)
      else .isFalse (fun he => h (Except.ok.inj he))
    | .error a, .error b =>
      if h : a = b then .isTrue (congrArg Except.error h)
      else .isFalse (fun he => h (Except.error.inj he))
    | .ok _, .error _ => .isFalse (fun he => Except.noConfusion he)
    | .error _, .ok _ => .isFalse (fun he => Except.noConfusion he)

/-- Python list read `ls[i]`: a negative index wraps from the end of the
list; an out-of-range index raises `IndexError`.  In the in-range branch
the index is valid, so the `getD` default 0 is never the result. -/
def pyGet (ls : List ℚ) (i : ℤ) : Except String ℚ :=
  let j : ℤ := if i < 0 then i + ls.length else i
  if 0 ≤ j ∧ j < (ls.length : ℤ) then
    .ok (ls.getD j.toNat 0)
  else
    .error "IndexError"

/-- Python `ls.pop(i)`: removes and returns the element at (possibly
negative) index `i`; raises `IndexError` when out of range. -/
def pyPop (ls : List ℚ) (i : ℤ) : Except String (ℚ × List ℚ) :=
  let j : ℤ := if i < 0 then i + ls.length else i
  if 0 ≤ j ∧ j < (ls.length : ℤ) then
    .ok (ls.getD j.toNat 0, ls.eraseIdx j.toNat)
  else
    .error "IndexError"

/-- State of a `detect_oscillation_about_minima` callback instance
(fields of `__init__`, lines 37-40) plus the host model's
`stop_training` flag. -/
structure detect_oscillation_about_minima where
  epoch_count : ℤ
  losses : List ℚ
  loss_convergence : ℚ
  stop_training : Bool
deriving DecidableEq

namespace detect_oscillation_about_minima

/-- Source `__init__` (lines 37-40), with the model's flag initially false. -/
def init : detect_oscillation_about_minima :=
  { epoch_count := 0, losses := [], loss_convergence := 0, stop_training := false }

/-- Source lines 42-43: `on_train_begin` resets `losses` to `[]`. -/
def on_train_begin (s : detect_oscillation_about_minima) :
    detect_oscillation_about_minima :=
  { s with losses := [] }

/-- Source lines 45-50: `check_convergence`.  Reads
`losses[epoch_count]` and `losses[epoch_count-1]`, divides by the latter
(ZeroDivisionError when it is 0) and compares the absolute percentage
change against `0.001`.  The Python function returns `True` or falls off
the end returning `None` (falsy); we return the truthiness as a `Bool`
together with the updated state. -/
def check_convergence (s : detect_oscillation_about_minima) :
    Except String (Bool × detect_oscillation_about_minima) := do
  let cur ← pyGet s.losses s.epoch_count
  let prev ← pyGet s.losses (s.epoch_count - 1)
  let difference := cur - prev
  if prev = 0 then
    .error "ZeroDivisionError"
  else
    let change := |difference / prev * 100|
    if change < 1 / 1000 then
      .ok (true, { s with loss_convergence := prev })
    else
      .ok (false, s)

/-- Source lines 52-61: `check_oscillation`.  Tests the zigzag pattern on
`losses[epoch_count-3 .. epoch_count]` and, when it holds, sets
`loss_convergence` to the mean of the last four entries (the Python
`for x in range(4)` loop over negative indices `-1,-2,-3,-4`, unrolled). -/
def check_oscillation (s : detect_oscillation_about_minima) :
    Except String (Bool × detect_oscillation_about_minima) := do
  let a ← pyGet s.losses (s.epoch_count - 1)
  let b ← pyGet s.losses s.epoch_count
  if a < b then
    let c ← pyGet s.losses (s.epoch_count - 2)
    if c > a then
      let d ← pyGet s.losses (s.epoch_count - 3)
      if d < c then
        let v0 ← pyGet s.losses (-1)
        let v1 ← pyGet s.losses (-2)
        let v2 ← pyGet s.losses (-3)
        let v3 ← pyGet s.losses (-4)
        let sum_of_values := 0 + v0 + v1 + v2 + v3
        .ok (true, { s with loss_convergence := sum_of_values / 4 })
      else
        .ok (false, s)
    else
      .ok (false, s)
  else
    .ok (false, s)

/-- Source lines 63-78: `on_epoch_end`.  Appends the reported loss, and if
`epoch_count` is truthy (nonzero) runs the three checks in order — the
equality check, the oscillation check guarded by `epoch_count > 3`
(Python `and` short-circuit), and the convergence check — each setting
`model.stop_training = True` when it fires; finally increments
`epoch_count`. -/
def on_epoch_end (s0 : detect_oscillation_about_minima) (loss : ℚ) :
    Except String detect_oscillation_about_minima := do
  let s1 := { s0 with losses := s0.losses ++ [loss] }
  if s1.epoch_count ≠ 0 then
    let prev ← pyGet s1.losses (s1.epoch_count - 1)
    let cur ← pyGet s1.losses s1.epoch_count
    let s2 := if prev = cur then
        { s1 with loss_convergence := cur, stop_training := true }
      else s1
    let s3 ← if s2.epoch_count > 3 then do
        let r ← check_oscillation s2
        pure (if r.1 then { r.2 with stop_training := true } else r.2)
      else
        pure s2
    let r2 ← check_convergence s3
    let s4 := if r2.1 then { r2.2 with stop_training := true } else r2.2
    pure { s4 with epoch_count := s4.epoch_count + 1 }
  else
    pure { s1 with epoch_count := s1.epoch_count + 1 }

/-- A sequence of `on_epoch_end` calls, one per reported epoch loss. -/
def run (s : detect_oscillation_about_minima) :
    List ℚ → Except String detect_oscillation_about_minima
  | [] => .ok s
  | l :: ls => do
    let s' ← on_epoch_end s l
    run s' ls

end detect_oscillation_about_minima

/-- State of an `increment_in_loss` callback instance (fields of
`__init__`, lines 100-104) plus the host model's `stop_training` flag. -/
structure increment_in_loss where
  threshold : ℤ
  epoch_count : ℤ
  error_count : ℤ
  losses : List ℚ
  stop_training : Bool
deriving DecidableEq

namespace increment_in_loss

/-- Source `__init__` (lines 100-104); `threshold` defaults to 3. -/
def init (threshold : ℤ := 3) : increment_in_loss :=
  { threshold := threshold, epoch_count := 0, error_count := 0,
    losses := [], stop_training := false }

/-- Source lines 106-107: `on_train_begin` resets `losses` to `[]`. -/
def on_train_begin (s : increment_in_loss) : increment_in_loss :=
  { s with losses := [] }

/-- Source lines 109-121: `on_epoch_end`.  Appends the loss; when
`epoch_count` is nonzero, a strict increase over the previous loss bumps
`error_count`, stopping training when it reaches `threshold` exactly;
otherwise `error_count` resets to 0.  Finally increments `epoch_count`. -/
def on_epoch_end (s0 : increment_in_loss) (loss : ℚ) :
    Except String increment_in_loss := do
  let s1 := { s0 with losses := s0.losses ++ [loss] }
  if s1.epoch_count ≠ 0 then
    let prev ← pyGet s1.losses (s1.epoch_count - 1)
    let cur ← pyGet s1.losses s1.epoch_count
    let s2 :=
      if prev < cur then
        let s' := { s1 with error_count := s1.error_count + 1 }
        if s'.error_count = s'.threshold then { s' with stop_training := true }
        else s'
      else
        { s1 with error_count := 0 }
    pure { s2 with epoch_count := s2.epoch_count + 1 }
  else
    pure { s1 with epoch_count := s1.epoch_count + 1 }

/-- The Python loop of `on_train_end` (lines 125-127):
`for x in range(threshold): losses.pop(-x-1)`, with `x` the loop counter
and the remaining iteration count explicit. -/
def pop_loop : List ℚ → ℤ → ℕ → Except String (List ℚ)
  | ls, _, 0 => .ok ls
  | ls, x, Nat.succ n => do
    let r ← pyPop ls (-x - 1)
    pop_loop r.2 (x + 1) n

/-- Source lines 123-127: `on_train_end` decrements `epoch_count` by
`threshold` and pops indices `-1, -2, ..., -threshold` from the shrinking
`losses` list (Python `range` of a negative number is empty, hence
`threshold.toNat` iterations). -/
def on_train_end (s : increment_in_loss) : Except String increment_in_loss := do
  let s1 := { s with epoch_count := s.epoch_count - s.threshold }
  let ls ← pop_loop s1.losses 0 s1.threshold.toNat
  .ok { s1 with losses := ls }

/-- A sequence of `on_epoch_end` calls, one per reported epoch loss. -/
def run (s : increment_in_loss) : List ℚ → Except String increment_in_loss
  | [] => .ok s
  | l :: ls => do
    let s' ← on_epoch_end s l
    run s' ls

end increment_in_loss

/-- State of a `loss_after_each_batch` callback instance.  The class has
no `__init__`; its only attribute is `losses`, created by
`on_train_begin`. -/
structure loss_after_each_batch where
  losses : List ℚ
deriving DecidableEq

namespace loss_after_each_batch

/-- Source lines 146-147: `on_train_begin` resets `losses` to `[]`. -/
def on_train_begin (_s : loss_after_each_batch) : loss_after_each_batch :=
  { losses := [] }

/-- Source lines 149-150: `on_batch_end` appends `logs.get('loss')`. -/
def on_batch_end (s : loss_after_each_batch) (loss : ℚ) : loss_after_each_batch :=
  { losses := s.losses ++ [loss] }

/-- A sequence of `on_batch_end` calls, one per reported batch loss. -/
def run (s : loss_after_each_batch) : List ℚ → loss_after_each_batch
  | [] => s
  | l :: ls => run (on_batch_end s l) ls

end loss_after_each_batch

/-! Helper lemmas about the embedded Python primitives. -/

theorem except_bind_ok {α β : Type} (a : α) (f : α → Except String β) :
    (Except.ok a >>= f) = f a := rfl

theorem except_bind_error {α β : Type} (e : String) (f : α → Except String β) :
    ((Except.error e : Except String α) >>= f) = Except.error e := rfl

theorem except_pure {α : Type} (a : α) : (pure a : Except String α) = .ok a := rfl

theorem pyGet_nonneg {ls : List ℚ} {i : ℤ} (h0 : 0 ≤ i) (h1 : i < (ls.length : ℤ)) :
    pyGet ls i = .ok (ls.getD i.toNat 0) := by
  have hni : ¬ i < 0 := by omega
  simp [pyGet, hni, h0, h1]

theorem pyGet_negIdx {ls : List ℚ} {i : ℤ} (h0 : i < 0) (h1 : 0 ≤ i + (ls.length : ℤ)) :
    pyGet ls i = .ok (ls.getD (i + ls.length).toNat 0) := by
  have h2 : i + (ls.length : ℤ) < (ls.length : ℤ) := by omega
  simp [pyGet, h0, h1, h2]

theorem pyGet_oob_high {ls : List ℚ} {i : ℤ} (h : (ls.length : ℤ) ≤ i) :
    pyGet ls i = .error "IndexError" := by
  have h0 : ¬ i < 0 := by omega
  have h1 : ¬ i < (ls.length : ℤ) := by omega
  simp [pyGet, h0, h1]

theorem pyGet_oob_low {ls : List ℚ} {i : ℤ} (h : i + (ls.length : ℤ) < 0) :
    pyGet ls i = .error "IndexError" := by
  have h0 : i < 0 := by omega
  have h1 : ¬ 0 ≤ i + (ls.length : ℤ) := by omega
  simp [pyGet, h0, h1]

theorem getD_append_at {zs rest : List ℚ} {k : ℕ} (_hk : k < rest.length) :
    (zs ++ rest).getD (zs.length + k) 0 = rest.getD k 0 := by
  rw [List.getD_eq_getElem?_getD, List.getD_eq_getElem?_getD,
    List.getElem?_append_right (by omega), Nat.add_sub_cancel_left]

theorem pyGet_append {zs rest : List ℚ} {i : ℤ} {k : ℕ} (hi : i = zs.length + k)
    (hk : k < rest.length) :
    pyGet (zs ++ rest) i = .ok (rest.getD k 0) := by
  have h0 : 0 ≤ i := by omega
  have h1 : i < ((zs ++ rest).length : ℤ) := by
    rw [List.length_append]
    push_cast
    omega
  rw [pyGet_nonneg h0 h1]
  have ht : i.toNat = zs.length + k := by omega
  rw [ht, getD_append_at hk]

theorem pyGet_neg_append {zs rest : List ℚ} {i : ℤ} {k : ℕ} (hneg : i < 0)
    (hi : i + ((zs ++ rest).length : ℤ) = zs.length + k) (hk : k < rest.length) :
    pyGet (zs ++ rest) i = .ok (rest.getD k 0) := by
  have h1 : 0 ≤ i + ((zs ++ rest).length : ℤ) := by omega
  rw [pyGet_negIdx hneg h1]
  have ht : (i + ((zs ++ rest).length : ℤ)).toNat = zs.length + k := by omega
  rw [ht, getD_append_at hk]

/-! Basic structural lemmas about the runs. -/

theorem batch_run_losses (ms : List ℚ) : ∀ s : loss_after_each_batch,
    (loss_after_each_batch.run s ms).losses = s.losses ++ ms := by
  induction ms with
  | nil => intro s; simp [loss_after_each_batch.run]
  | cons m ms ih =>
    intro s
    simp [loss_after_each_batch.run, ih, loss_after_each_batch.on_batch_end]

/-! Characterization of `increment_in_loss.on_epoch_end`. -/

theorem inc_on_epoch_end_zero (s : increment_in_loss) (l : ℚ) (h0 : s.epoch_count = 0) :
    s.on_epoch_end l =
      .ok { s with losses := s.losses ++ [l], epoch_count := s.epoch_count + 1 } := by
  unfold increment_in_loss.on_epoch_end
  simp [h0, except_pure]

theorem inc_on_epoch_end_up (s : increment_in_loss) (xs : List ℚ) (q l : ℚ)
    (h : s.losses = xs ++ [q]) (hc : s.epoch_count = (xs.length : ℤ) + 1) (hlt : q < l) :
    s.on_epoch_end l =
      .ok { s with
        losses := s.losses ++ [l],
        epoch_count := s.epoch_count + 1,
        error_count := s.error_count + 1,
        stop_training :=
          if s.error_count + 1 = s.threshold then true else s.stop_training } := by
  have hne : s.epoch_count ≠ 0 := by
    have : (0 : ℤ) ≤ (xs.length : ℤ) := by positivity
    omega
  have g1 : pyGet (s.losses ++ [l]) (s.epoch_count - 1) = .ok q := by
    rw [h, List.append_assoc]
    exact pyGet_append (k := 0) (by push_cast; omega) (by simp)
  have g2 : pyGet (s.losses ++ [l]) s.epoch_count = .ok l := by
    rw [h, List.append_assoc]
    exact pyGet_append (k := 1) (by push_cast; omega) (by simp)
  unfold increment_in_loss.on_epoch_end
  by_cases hq : s.error_count + 1 = s.threshold <;>
    simp [hne, g1, g2, except_bind_ok, except_pure, hlt, hq]

theorem inc_on_epoch_end_down (s : increment_in_loss) (xs : List ℚ) (q l : ℚ)
    (h : s.losses = xs ++ [q]) (hc : s.epoch_count = (xs.length : ℤ) + 1) (hge : ¬ q < l) :
    s.on_epoch_end l =
      .ok { s with
        losses := s.losses ++ [l],
        epoch_count := s.epoch_count + 1,
        error_count := 0 } := by
  have hne : s.epoch_count ≠ 0 := by
    have : (0 : ℤ) ≤ (xs.length : ℤ) := by positivity
    omega
  have g1 : pyGet (s.losses ++ [l]) (s.epoch_count - 1) = .ok q := by
    rw [h, List.append_assoc]
    exact pyGet_append (k := 0) (by push_cast; omega) (by simp)
  have g2 : pyGet (s.losses ++ [l]) s.epoch_count = .ok l := by
    rw [h, List.append_assoc]
    exact pyGet_append (k := 1) (by push_cast; omega) (by simp)
  unfold increment_in_loss.on_epoch_end
  simp [hne, g1, g2, except_bind_ok, except_pure, hge]

/-- Single `increment_in_loss.on_epoch_end` step from a consistent state
(`epoch_count` equal to the number of recorded losses) preserves
consistency, appends exactly the reported loss, keeps `error_count`
nonnegative, maintains "error_count at or above threshold implies the
stop flag", never unsets the stop flag, and bumps `error_count` by one on
a strict increase. -/
theorem inc_step_inv (s : increment_in_loss) (l : ℚ)
    (hc : s.epoch_count = (s.losses.length : ℤ))
    (he : 0 ≤ s.error_count)
    (hi : s.threshold ≤ s.error_count → s.stop_training = true) :
    ∃ s', s.on_epoch_end l = .ok s' ∧
      s'.threshold = s.threshold ∧
      s'.epoch_count = (s'.losses.length : ℤ) ∧
      s'.losses = s.losses ++ [l] ∧
      0 ≤ s'.error_count ∧
      (s'.threshold ≤ s'.error_count → s'.stop_training = true) ∧
      (s.stop_training = true → s'.stop_training = true) ∧
      (∀ (xs : List ℚ) (q : ℚ), s.losses = xs ++ [q] → q < l →
        s'.error_count = s.error_count + 1) := by
  rcases List.eq_nil_or_concat s.losses with hnil | ⟨xs, q, hx⟩
  case inr =>
    rw [List.concat_eq_append] at hx
    have hc' : s.epoch_count = (xs.length : ℤ) + 1 := by
      rw [hc, hx, List.length_append, List.length_singleton]
      push_cast
      ring
    by_cases hql : q < l
    · rw [inc_on_epoch_end_up s xs q l hx hc' hql]
      refine ⟨_, rfl, rfl, ?_, rfl, ?_, ?_, ?_, ?_⟩
      · show s.epoch_count + 1 = ((s.losses ++ [l]).length : ℤ)
        rw [List.length_append, List.length_singleton]
        push_cast
        omega
      · show 0 ≤ s.error_count + 1
        omega
      · intro hτ
        show (if s.error_count + 1 = s.threshold then true else s.stop_training) = true
        have hτ' : s.threshold ≤ s.error_count + 1 := hτ
        by_cases hq : s.error_count + 1 = s.threshold
        · simp [hq]
        · have : s.threshold ≤ s.error_count := by omega
          simp [hq, hi this]
      · intro hst
        show (if s.error_count + 1 = s.threshold then true else s.stop_training) = true
        by_cases hq : s.error_count + 1 = s.threshold <;> simp [hq, hst]
      · intro ys p hyp _
        rfl
    · rw [inc_on_epoch_end_down s xs q l hx hc' hql]
      refine ⟨_, rfl, rfl, ?_, rfl, le_refl 0, ?_, fun h => h, ?_⟩
      · show s.epoch_count + 1 = ((s.losses ++ [l]).length : ℤ)
        rw [List.length_append, List.length_singleton]
        push_cast
        omega
      · intro hτ
        have hτ' : s.threshold ≤ (0 : ℤ) := hτ
        exact hi (le_trans hτ' he)
      · intro ys p hyp hpl
        have hpq : p = q := by
          have h2 : s.losses.getLast? = some q := by
            rw [hx]
            exact List.getLast?_concat xs
          rw [hyp, List.getLast?_concat] at h2
          exact Option.some.inj h2
        rw [hpq] at hpl
        exact absurd hpl hql
  case inl =>
    have h0 : s.epoch_count = 0 := by
      rw [hc, hnil]
      rfl
    rw [inc_on_epoch_end_zero s l h0]
    refine ⟨_, rfl, rfl, ?_, rfl, he, hi, fun h => h, ?_⟩
    · show s.epoch_count + 1 = ((s.losses ++ [l]).length : ℤ)
      rw [hnil, h0]
      rfl
    · intro xs q hq _
      rw [hnil] at hq
      have hlen := congrArg List.length hq
      rw [List.length_append, List.length_singleton] at hlen
      simp at hlen

/-- Bind-composition of `increment_in_loss.run` over an appended list. -/
theorem inc_run_append (as bs : List ℚ) : ∀ s : increment_in_loss,
    increment_in_loss.run s (as ++ bs) =
      (increment_in_loss.run s as) >>= fun s' => increment_in_loss.run s' bs := by
  induction as with
  | nil => intro s; simp [increment_in_loss.run, except_bind_ok]
  | cons a as ih =>
    intro s
    simp only [List.cons_append, increment_in_loss.run]
    cases s.on_epoch_end a with
    | error e => simp [except_bind_error]
    | ok s' => simp [except_bind_ok, ih]

/-- Invariant of `increment_in_loss.run` from a consistent state: the run
never raises, stays consistent, appends the fed losses in order, keeps
`error_count` nonnegative, maintains "error_count at or above threshold
implies the stop flag", and never unsets the stop flag. -/
theorem inc_run_inv (ls : List ℚ) : ∀ s : increment_in_loss,
    s.epoch_count = (s.losses.length : ℤ) →
    0 ≤ s.error_count →
    (s.threshold ≤ s.error_count → s.stop_training = true) →
    ∃ s', increment_in_loss.run s ls = .ok s' ∧
      s'.threshold = s.threshold ∧
      s'.epoch_count = (s'.losses.length : ℤ) ∧
      s'.losses = s.losses ++ ls ∧
      0 ≤ s'.error_count ∧
      (s'.threshold ≤ s'.error_count → s'.stop_training = true) ∧
      (s.stop_training = true → s'.stop_training = true) := by
  induction ls with
  | nil =>
    intro s hc he hi
    exact ⟨s, rfl, rfl, hc, by simp, he, hi, fun h => h⟩
  | cons l ls ih =>
    intro s hc he hi
    obtain ⟨s1, hstep, hτ1, hc1, hl1, he1, hi1, hmono1, _⟩ := inc_step_inv s l hc he hi
    obtain ⟨s2, hrun, hτ2, hc2, hl2, he2, hi2, hmono2⟩ :=
      ih s1 hc1 he1 hi1
    refine ⟨s2, ?_, by rw [hτ2, hτ1], hc2, ?_, he2, hi2, fun h => hmono2 (hmono1 h)⟩
    · simp [increment_in_loss.run, hstep, except_bind_ok, hrun]
    · rw [hl2, hl1, List.append_assoc]
      rfl

/-- C1 (amended): with the default threshold 3, after three consecutive
STRICTLY increasing epoch losses (each epoch's reported loss strictly
greater than the previous epoch's), `on_epoch_end` has set the model's
`stop_training` flag to true, wherever those three increases occur in the
run. -/
theorem C1_amended_strict_increase (p : List ℚ) (a b c d : ℚ)
    (h1 : a < b) (h2 : b < c) (h3 : c < d) :
    ∃ s', increment_in_loss.run ((increment_in_loss.init 3).on_train_begin)
        (p ++ [a, b, c, d]) = .ok s' ∧ s'.stop_training = true := by
  obtain ⟨s0, hrun0, hτ0, hc0, hl0, he0, hi0, _⟩ :=
    inc_run_inv p ((increment_in_loss.init 3).on_train_begin) rfl (le_refl 0)
      (by intro h; exact absurd h (by norm_num [increment_in_loss.init,
        increment_in_loss.on_train_begin]))
  have hl0' : s0.losses = p := by
    rw [hl0]; rfl
  obtain ⟨s1, hstep1, hτ1, hc1, hl1, he1, hi1, _, _⟩ := inc_step_inv s0 a hc0 he0 hi0
  obtain ⟨s2, hstep2, hτ2, hc2, hl2, he2, hi2, _, herr2⟩ := inc_step_inv s1 b hc1 he1 hi1
  obtain ⟨s3, hstep3, hτ3, hc3, hl3, he3, hi3, _, herr3⟩ := inc_step_inv s2 c hc2 he2 hi2
  obtain ⟨s4, hstep4, hτ4, hc4, hl4, he4, hi4, _, herr4⟩ := inc_step_inv s3 d hc3 he3 hi3
  have e2 : s2.error_count = s1.error_count + 1 :=
    herr2 s0.losses a (by rw [hl1]) h1
  have e3 : s3.error_count = s2.error_count + 1 :=
    herr3 s1.losses b (by rw [hl2]) h2
  have e4 : s4.error_count = s3.error_count + 1 :=
    herr4 s2.losses c (by rw [hl3]) h3
  have hτ : s4.threshold = 3 := by
    rw [hτ4, hτ3, hτ2, hτ1, hτ0]
    rfl
  have hstop : s4.stop_training = true := by
    apply hi4
    rw [hτ, e4, e3, e2]
    omega
  refine ⟨s4, ?_, hstop⟩
  rw [inc_run_append p [a, b, c, d] _, hrun0, except_bind_ok]
  simp [increment_in_loss.run, hstep1, hstep2, hstep3, hstep4, except_bind_ok]

/-- C1 (counterexample): with the default threshold 3, four equal epoch
losses give three consecutive NON-DECREASING transitions (no epoch's loss
is lower than the previous one), yet the run ends with `error_count`
reset to 0 and `stop_training` still false — the code counts only STRICT
increases. -/
theorem C1_counterexample_equal_losses :
    increment_in_loss.run ((increment_in_loss.init 3).on_train_begin) [1, 1, 1, 1] =
      .ok { threshold := 3, epoch_count := 4, error_count := 0,
            losses := [1, 1, 1, 1], stop_training := false } ∧
      ((1 : ℚ) ≤ 1 ∧ (1 : ℚ) ≤ 1 ∧ (1 : ℚ) ≤ 1) := by
  constructor
  · decide
  · exact ⟨le_refl 1, le_refl 1, le_refl 1⟩

/-! Frame lemmas: the two oscillation-detector checks never modify the
`losses` list, the epoch counter, or the stop flag. -/

theorem except_bind_eq_ok {α β : Type} {x : Except String α} {g : α → Except String β}
    {t : β} (h : x >>= g = .ok t) : ∃ a, x = .ok a ∧ g a = .ok t := by
  cases x with
  | error e => rw [except_bind_error] at h; exact absurd h (by simp)
  | ok a => exact ⟨a, rfl, h⟩

theorem check_convergence_frame (s t : detect_oscillation_about_minima) (b : Bool)
    (h : s.check_convergence = .ok (b, t)) :
    t.losses = s.losses ∧ t.epoch_count = s.epoch_count ∧
      t.stop_training = s.stop_training := by
  unfold detect_oscillation_about_minima.check_convergence at h
  obtain ⟨cur, h1, h⟩ := except_bind_eq_ok h
  obtain ⟨prev, h2, h⟩ := except_bind_eq_ok h
  simp only at h
  by_cases hz : prev = 0
  · rw [if_pos hz] at h
    exact absurd h (by simp)
  · rw [if_neg hz] at h
    by_cases hch : |(cur - prev) / prev * 100| < 1 / 1000
    · rw [if_pos hch] at h
      have h' := Except.ok.inj h
      rw [Prod.mk.injEq] at h'
      rw [← h'.2]
      exact ⟨rfl, rfl, rfl⟩
    · rw [if_neg hch] at h
      have h' := Except.ok.inj h
      rw [Prod.mk.injEq] at h'
      rw [← h'.2]
      exact ⟨rfl, rfl, rfl⟩

theorem check_oscillation_frame (s t : detect_oscillation_about_minima) (b : Bool)
    (h : s.check_oscillation = .ok (b, t)) :
    t.losses = s.losses ∧ t.epoch_count = s.epoch_count ∧
      t.stop_training = s.stop_training := by
  unfold detect_oscillation_about_minima.check_oscillation at h
  obtain ⟨a, h1, h⟩ := except_bind_eq_ok h
  obtain ⟨b', h2, h⟩ := except_bind_eq_ok h
  by_cases hab : a < b'
  · rw [if_pos hab] at h
    obtain ⟨c, h3, h⟩ := except_bind_eq_ok h
    by_cases hca : c > a
    · rw [if_pos hca] at h
      obtain ⟨d, h4, h⟩ := except_bind_eq_ok h
      by_cases hdc : d < c
      · rw [if_pos hdc] at h
        obtain ⟨v0, h5, h⟩ := except_bind_eq_ok h
        obtain ⟨v1, h6, h⟩ := except_bind_eq_ok h
        obtain ⟨v2, h7, h⟩ := except_bind_eq_ok h
        obtain ⟨v3, h8, h⟩ := except_bind_eq_ok h
        simp only at h
        have h' := Except.ok.inj h
        rw [Prod.mk.injEq] at h'
        rw [← h'.2]
        exact ⟨rfl, rfl, rfl⟩
      · rw [if_neg hdc] at h
        have h' := Except.ok.inj h
        rw [Prod.mk.injEq] at h'
        rw [← h'.2]
        exact ⟨rfl, rfl, rfl⟩
    · rw [if_neg hca] at h
      have h' := Except.ok.inj h
      rw [Prod.mk.injEq] at h'
      rw [← h'.2]
      exact ⟨rfl, rfl, rfl⟩
  · rw [if_neg hab] at h
    have h' := Except.ok.inj h
    rw [Prod.mk.injEq] at h'
    rw [← h'.2]
    exact ⟨rfl, rfl, rfl⟩

/-- From the intermediate state reached once the loss is appended and the
equality check has run, the rest of
`detect_oscillation_about_minima.on_epoch_end` only edits
`loss_convergence` and the stop flag, then bumps `epoch_count`. -/
theorem osc_tail (u t : detect_oscillation_about_minima)
    (h : (do
        let s3 ← if u.epoch_count > 3 then do
            let r ← detect_oscillation_about_minima.check_oscillation u
            pure (if r.1 then { r.2 with stop_training := true } else r.2)
          else
            pure u
        let r2 ← detect_oscillation_about_minima.check_convergence s3
        let s4 := if r2.1 then { r2.2 with stop_training := true } else r2.2
        pure { s4 with epoch_count := s4.epoch_count + 1 }) = Except.ok t) :
    t.losses = u.losses ∧ t.epoch_count = u.epoch_count + 1 := by
  by_cases h3 : u.epoch_count > 3
  · rw [if_pos h3] at h
    obtain ⟨r, h4, h⟩ := except_bind_eq_ok h
    obtain ⟨s3, hy, h⟩ := except_bind_eq_ok h
    obtain ⟨r2, hc, h⟩ := except_bind_eq_ok h
    simp only [except_pure] at hy
    have hs3 := Except.ok.inj hy
    obtain ⟨f1, f2, f3⟩ := check_oscillation_frame u r.2 r.1 (by rw [h4])
    obtain ⟨c1, c2, c3⟩ := check_convergence_frame s3 r2.2 r2.1 (by rw [hc])
    have hs3l : s3.losses = u.losses := by
      rw [← hs3]
      by_cases hr : r.1 = true <;> simp [hr, f1]
    have hs3e : s3.epoch_count = u.epoch_count := by
      rw [← hs3]
      by_cases hr : r.1 = true <;> simp [hr, f2]
    simp only [except_pure] at h
    have ht := Except.ok.inj h
    rw [← ht]
    by_cases hr2 : r2.1 = true <;> simp [hr2, c1, c2, hs3l, hs3e]
  · rw [if_neg h3] at h
    obtain ⟨s3, hy, h⟩ := except_bind_eq_ok h
    obtain ⟨r2, hc, h⟩ := except_bind_eq_ok h
    simp only [except_pure] at hy
    have hs3 := Except.ok.inj hy
    obtain ⟨c1, c2, c3⟩ := check_convergence_frame s3 r2.2 r2.1 (by rw [hc])
    simp only [except_pure] at h
    have ht := Except.ok.inj h
    rw [← ht]
    by_cases hr2 : r2.1 = true <;> simp [hr2, c1, c2, ← hs3]

/-- Whenever `detect_oscillation_about_minima.on_epoch_end` returns
normally it has appended exactly the reported loss to `losses`, and has
incremented `epoch_count`. -/
theorem osc_on_epoch_end_append (s t : detect_oscillation_about_minima) (l : ℚ)
    (h : s.on_epoch_end l = .ok t) :
    t.losses = s.losses ++ [l] ∧ t.epoch_count = s.epoch_count + 1 := by
  unfold detect_oscillation_about_minima.on_epoch_end at h
  simp only at h
  by_cases hne : s.epoch_count ≠ 0
  · rw [if_pos hne] at h
    obtain ⟨prev, h1, h⟩ := except_bind_eq_ok h
    obtain ⟨cur, h2, h⟩ := except_bind_eq_ok h
    by_cases hpc : prev = cur
    · rw [if_pos hpc] at h
      exact osc_tail _ t h
    · rw [if_neg hpc] at h
      exact osc_tail _ t h
  · rw [if_neg hne] at h
    simp only [except_pure] at h
    have h' := Except.ok.inj h
    rw [← h']
    exact ⟨rfl, rfl⟩

/-- Whenever `increment_in_loss.on_epoch_end` returns normally it has
appended exactly the reported loss to `losses`, and has incremented
`epoch_count`. -/
theorem inc_on_epoch_end_append (s t : increment_in_loss) (l : ℚ)
    (h : s.on_epoch_end l = .ok t) :
    t.losses = s.losses ++ [l] ∧ t.epoch_count = s.epoch_count + 1 := by
  unfold increment_in_loss.on_epoch_end at h
  simp only at h
  by_cases hne : s.epoch_count ≠ 0
  · rw [if_pos hne] at h
    obtain ⟨prev, h1, h⟩ := except_bind_eq_ok h
    obtain ⟨cur, h2, h⟩ := except_bind_eq_ok h
    simp only [except_pure] at h
    have h' := Except.ok.inj h
    rw [← h']
    by_cases hpc : prev < cur
    · by_cases hq : s.error_count + 1 = s.threshold <;>
        simp [hpc, hq]
    · simp [hpc]
  · rw [if_neg hne] at h
    simp only [except_pure] at h
    have h' := Except.ok.inj h
    rw [← h']
    exact ⟨rfl, rfl⟩

/-! Characterization of the `detect_oscillation_about_minima` hooks. -/

theorem osc_on_epoch_end_zero (s : detect_oscillation_about_minima) (l : ℚ)
    (h0 : s.epoch_count = 0) :
    s.on_epoch_end l =
      .ok { s with losses := s.losses ++ [l], epoch_count := s.epoch_count + 1 } := by
  unfold detect_oscillation_about_minima.on_epoch_end
  simp [h0, except_pure]

/-- Once the two initial reads are known, `on_epoch_end` is the equality
check followed by the guarded oscillation check and the convergence
check. -/
theorem osc_on_epoch_end_eq (s : detect_oscillation_about_minima) (l p : ℚ)
    (hne : s.epoch_count ≠ 0)
    (g1 : pyGet (s.losses ++ [l]) (s.epoch_count - 1) = .ok p)
    (g2 : pyGet (s.losses ++ [l]) s.epoch_count = .ok l) :
    s.on_epoch_end l = (do
      let s2 := if p = l then
          { s with
            losses := s.losses ++ [l],
            loss_convergence := l,
            stop_training := true }
        else { s with losses := s.losses ++ [l] }
      let s3 ← if s2.epoch_count > 3 then do
          let r ← detect_oscillation_about_minima.check_oscillation s2
          pure (if r.1 then { r.2 with stop_training := true } else r.2)
        else
          pure s2
      let r2 ← detect_oscillation_about_minima.check_convergence s3
      let s4 := if r2.1 then { r2.2 with stop_training := true } else r2.2
      pure { s4 with epoch_count := s4.epoch_count + 1 }) := by
  unfold detect_oscillation_about_minima.on_epoch_end
  simp only [if_pos hne, g1, g2, except_bind_ok]

theorem check_convergence_zero (s : detect_oscillation_about_minima)
    (ys : List ℚ) (c : ℚ)
    (hl : s.losses = ys ++ [0, c])
    (he : s.epoch_count = (ys.length : ℤ) + 1) :
    s.check_convergence = .error "ZeroDivisionError" := by
  have g2 : pyGet s.losses s.epoch_count = .ok c := by
    rw [hl]
    exact pyGet_append (k := 1) (by omega) (by simp)
  have g1 : pyGet s.losses (s.epoch_count - 1) = .ok 0 := by
    rw [hl]
    exact pyGet_append (k := 0) (by omega) (by simp)
  unfold detect_oscillation_about_minima.check_convergence
  simp [g2, g1, except_bind_ok]

theorem check_convergence_true (s : detect_oscillation_about_minima)
    (ys : List ℚ) (p c : ℚ)
    (hl : s.losses = ys ++ [p, c])
    (he : s.epoch_count = (ys.length : ℤ) + 1)
    (hp : p ≠ 0)
    (hch : |(c - p) / p * 100| < 1 / 1000) :
    s.check_convergence = .ok (true, { s with loss_convergence := p }) := by
  have g2 : pyGet s.losses s.epoch_count = .ok c := by
    rw [hl]
    exact pyGet_append (k := 1) (by omega) (by simp)
  have g1 : pyGet s.losses (s.epoch_count - 1) = .ok p := by
    rw [hl]
    exact pyGet_append (k := 0) (by omega) (by simp)
  unfold detect_oscillation_about_minima.check_convergence
  simp only [g2, g1, except_bind_ok, if_neg hp, if_pos hch]

theorem check_convergence_false (s : detect_oscillation_about_minima)
    (ys : List ℚ) (p c : ℚ)
    (hl : s.losses = ys ++ [p, c])
    (he : s.epoch_count = (ys.length : ℤ) + 1)
    (hp : p ≠ 0)
    (hch : ¬ |(c - p) / p * 100| < 1 / 1000) :
    s.check_convergence = .ok (false, s) := by
  have g2 : pyGet s.losses s.epoch_count = .ok c := by
    rw [hl]
    exact pyGet_append (k := 1) (by omega) (by simp)
  have g1 : pyGet s.losses (s.epoch_count - 1) = .ok p := by
    rw [hl]
    exact pyGet_append (k := 0) (by omega) (by simp)
  unfold detect_oscillation_about_minima.check_convergence
  simp only [g2, g1, except_bind_ok, if_neg hp, if_neg hch]

theorem check_oscillation_true (s : detect_oscillation_about_minima)
    (zs : List ℚ) (w x y z : ℚ)
    (hl : s.losses = zs ++ [w, x, y, z])
    (he : s.epoch_count = (zs.length : ℤ) + 3)
    (h1 : y < z) (h2 : x > y) (h3 : w < x) :
    s.check_oscillation =
      .ok (true, { s with loss_convergence := (0 + z + y + x + w) / 4 }) := by
  have hlen : s.losses.length = zs.length + 4 := by
    rw [hl, List.length_append]
    rfl
  have ga : pyGet s.losses (s.epoch_count - 1) = .ok y := by
    rw [hl]
    exact pyGet_append (k := 2) (by omega) (by simp)
  have gb : pyGet s.losses s.epoch_count = .ok z := by
    rw [hl]
    exact pyGet_append (k := 3) (by omega) (by simp)
  have gc : pyGet s.losses (s.epoch_count - 2) = .ok x := by
    rw [hl]
    exact pyGet_append (k := 1) (by omega) (by simp)
  have gd : pyGet s.losses (s.epoch_count - 3) = .ok w := by
    rw [hl]
    exact pyGet_append (k := 0) (by omega) (by simp)
  have gv0 : pyGet s.losses (-1) = .ok z := by
    rw [hl]
    exact pyGet_neg_append (k := 3) (by omega) (by rw [← hl, hlen]; push_cast; ring)
      (by simp)
  have gv1 : pyGet s.losses (-2) = .ok y := by
    rw [hl]
    exact pyGet_neg_append (k := 2) (by omega) (by rw [← hl, hlen]; push_cast; ring)
      (by simp)
  have gv2 : pyGet s.losses (-3) = .ok x := by
    rw [hl]
    exact pyGet_neg_append (k := 1) (by omega) (by rw [← hl, hlen]; push_cast; ring)
      (by simp)
  have gv3 : pyGet s.losses (-4) = .ok w := by
    rw [hl]
    exact pyGet_neg_append (k := 0) (by omega) (by rw [← hl, hlen]; push_cast; ring)
      (by simp)
  unfold detect_oscillation_about_minima.check_oscillation
  simp only [ga, gb, gc, gd, gv0, gv1, gv2, gv3, except_bind_ok,
    if_pos h1, if_pos h2, if_pos h3]

theorem check_oscillation_shape (s : detect_oscillation_about_minima)
    (zs : List ℚ) (w x y z : ℚ)
    (hl : s.losses = zs ++ [w, x, y, z])
    (he : s.epoch_count = (zs.length : ℤ) + 3) :
    ∃ (b : Bool) (v : ℚ),
      s.check_oscillation = .ok (b, { s with loss_convergence := v }) := by
  have hlen : s.losses.length = zs.length + 4 := by
    rw [hl, List.length_append]
    rfl
  have ga : pyGet s.losses (s.epoch_count - 1) = .ok y := by
    rw [hl]
    exact pyGet_append (k := 2) (by omega) (by simp)
  have gb : pyGet s.losses s.epoch_count = .ok z := by
    rw [hl]
    exact pyGet_append (k := 3) (by omega) (by simp)
  have gc : pyGet s.losses (s.epoch_count - 2) = .ok x := by
    rw [hl]
    exact pyGet_append (k := 1) (by omega) (by simp)
  have gd : pyGet s.losses (s.epoch_count - 3) = .ok w := by
    rw [hl]
    exact pyGet_append (k := 0) (by omega) (by simp)
  have gv0 : pyGet s.losses (-1) = .ok z := by
    rw [hl]
    exact pyGet_neg_append (k := 3) (by omega) (by rw [← hl, hlen]; push_cast; ring)
      (by simp)
  have gv1 : pyGet s.losses (-2) = .ok y := by
    rw [hl]
    exact pyGet_neg_append (k := 2) (by omega) (by rw [← hl, hlen]; push_cast; ring)
      (by simp)
  have gv2 : pyGet s.losses (-3) = .ok x := by
    rw [hl]
    exact pyGet_neg_append (k := 1) (by omega) (by rw [← hl, hlen]; push_cast; ring)
      (by simp)
  have gv3 : pyGet s.losses (-4) = .ok w := by
    rw [hl]
    exact pyGet_neg_append (k := 0) (by omega) (by rw [← hl, hlen]; push_cast; ring)
      (by simp)
  unfold detect_oscillation_about_minima.check_oscillation
  simp only [ga, gb, gc, gd, gv0, gv1, gv2, gv3, except_bind_ok]
  by_cases c1 : y < z
  · simp only [if_pos c1]
    by_cases c2 : x > y
    · simp only [if_pos c2]
      by_cases c3 : w < x
      · simp only [if_pos c3]
        exact ⟨true, (0 + z + y + x + w) / 4, rfl⟩
      · simp only [if_neg c3]
        exact ⟨false, s.loss_convergence, rfl⟩
    · simp only [if_neg c2]
      exact ⟨false, s.loss_convergence, rfl⟩
  · simp only [if_neg c1]
    exact ⟨false, s.loss_convergence, rfl⟩

theorem bool_ite_true {α : Type} (a b : α) :
    (if (true : Bool) = true then a else b) = a := rfl

theorem bool_ite_false {α : Type} (a b : α) :
    (if (false : Bool) = true then a else b) = b := rfl

/-- Tail of `on_epoch_end` when the convergence criterion fires: whatever
the oscillation check did, the final state has `loss_convergence` equal
to the previous loss and the stop flag set. -/
theorem osc_tail_conv (u : detect_oscillation_about_minima) (ys : List ℚ) (p c : ℚ)
    (hul : u.losses = ys ++ [p, c])
    (hue : u.epoch_count = (ys.length : ℤ) + 1)
    (hp : p ≠ 0)
    (hch : |(c - p) / p * 100| < 1 / 1000) :
    (do
      let s3 ← if u.epoch_count > 3 then do
          let r ← detect_oscillation_about_minima.check_oscillation u
          pure (if r.1 then { r.2 with stop_training := true } else r.2)
        else
          pure u
      let r2 ← detect_oscillation_about_minima.check_convergence s3
      let s4 := if r2.1 then { r2.2 with stop_training := true } else r2.2
      pure { s4 with epoch_count := s4.epoch_count + 1 })
    = Except.ok { u with
        epoch_count := u.epoch_count + 1,
        loss_convergence := p,
        stop_training := true } := by
  by_cases h3 : u.epoch_count > 3
  · have hys2 : 2 ≤ ys.length := by omega
    rcases List.eq_nil_or_concat ys with hnil | ⟨ys1, a1, hys⟩
    · rw [hnil] at hys2
      simp at hys2
    rw [List.concat_eq_append] at hys
    rcases List.eq_nil_or_concat ys1 with hnil | ⟨zs, a2, hzs⟩
    · rw [hys, hnil] at hys2
      simp at hys2
    rw [List.concat_eq_append] at hzs
    rw [hzs] at hys
    have hys_len : ys.length = zs.length + 2 := by
      rw [hys, List.length_append, List.length_append]
      rfl
    obtain ⟨b, v, hosc⟩ := check_oscillation_shape u zs a2 a1 p c
      (by rw [hul, hys]; simp) (by omega)
    cases b
    · have hcv := check_convergence_true { u with loss_convergence := v } ys p c
        (by show u.losses = ys ++ [p, c]; exact hul)
        (by show u.epoch_count = (ys.length : ℤ) + 1; exact hue) hp hch
      simp only [if_pos h3, hosc, except_bind_ok, except_pure, bool_ite_false,
        hcv, bool_ite_true, if_true, if_false]
    · have hcv := check_convergence_true
        { u with loss_convergence := v, stop_training := true } ys p c
        (by show u.losses = ys ++ [p, c]; exact hul)
        (by show u.epoch_count = (ys.length : ℤ) + 1; exact hue) hp hch
      simp only [if_pos h3, hosc, except_bind_ok, except_pure, bool_ite_true, hcv, if_true, if_false]
  · have hcv := check_convergence_true u ys p c hul hue hp hch
    simp only [if_neg h3, except_pure, except_bind_ok, hcv, bool_ite_true, if_true, if_false]

/-- Tail of `on_epoch_end` when `epoch_count > 3` and the last four
losses zigzag: the oscillation check fires and sets `loss_convergence` to
the mean of the last four, which the convergence check then overwrites
with the previous loss exactly when the convergence criterion also
holds. -/
theorem osc_tail_zig (u : detect_oscillation_about_minima) (zs : List ℚ) (w x y c : ℚ)
    (hul : u.losses = zs ++ [w, x, y, c])
    (hue : u.epoch_count = (zs.length : ℤ) + 3)
    (h3 : u.epoch_count > 3)
    (hz1 : y < c) (hz2 : x > y) (hz3 : w < x)
    (hy : y ≠ 0) :
    (do
      let s3 ← if u.epoch_count > 3 then do
          let r ← detect_oscillation_about_minima.check_oscillation u
          pure (if r.1 then { r.2 with stop_training := true } else r.2)
        else
          pure u
      let r2 ← detect_oscillation_about_minima.check_convergence s3
      let s4 := if r2.1 then { r2.2 with stop_training := true } else r2.2
      pure { s4 with epoch_count := s4.epoch_count + 1 })
    = (if |(c - y) / y * 100| < 1 / 1000 then
        Except.ok { u with
          epoch_count := u.epoch_count + 1,
          loss_convergence := y,
          stop_training := true }
      else
        Except.ok { u with
          epoch_count := u.epoch_count + 1,
          loss_convergence := (0 + c + y + x + w) / 4,
          stop_training := true }) := by
  have hosc := check_oscillation_true u zs w x y c hul hue hz1 hz2 hz3
  have hlys : u.losses = (zs ++ [w, x]) ++ [y, c] := by
    rw [hul]
    simp
  have heys : u.epoch_count = (((zs ++ [w, x]).length : ℕ) : ℤ) + 1 := by
    rw [List.length_append, List.length_cons, List.length_cons, List.length_nil]
    push_cast
    omega
  by_cases hch : |(c - y) / y * 100| < 1 / 1000
  · have hcv := check_convergence_true
      { u with loss_convergence := (0 + c + y + x + w) / 4, stop_training := true }
      (zs ++ [w, x]) y c
      (by show u.losses = (zs ++ [w, x]) ++ [y, c]; exact hlys)
      (by show u.epoch_count = (((zs ++ [w, x]).length : ℕ) : ℤ) + 1; exact heys)
      hy hch
    rw [if_pos hch]
    simp only [if_pos h3, hosc, except_bind_ok, except_pure, bool_ite_true, hcv, if_true, if_false]
  · have hcv := check_convergence_false
      { u with loss_convergence := (0 + c + y + x + w) / 4, stop_training := true }
      (zs ++ [w, x]) y c
      (by show u.losses = (zs ++ [w, x]) ++ [y, c]; exact hlys)
      (by show u.epoch_count = (((zs ++ [w, x]).length : ℕ) : ℤ) + 1; exact heys)
      hy hch
    rw [if_neg hch]
    simp only [if_pos h3, hosc, except_bind_ok, except_pure, bool_ite_true, hcv,
      bool_ite_false, if_true, if_false]

/-- Tail of `on_epoch_end` from any consistent intermediate state with a
nonzero previous loss: no exception is raised. -/
theorem osc_tail_total (u : detect_oscillation_about_minima) (ys : List ℚ) (p c : ℚ)
    (hul : u.losses = ys ++ [p, c])
    (hue : u.epoch_count = (ys.length : ℤ) + 1)
    (hp : p ≠ 0) :
    ∃ t, (do
      let s3 ← if u.epoch_count > 3 then do
          let r ← detect_oscillation_about_minima.check_oscillation u
          pure (if r.1 then { r.2 with stop_training := true } else r.2)
        else
          pure u
      let r2 ← detect_oscillation_about_minima.check_convergence s3
      let s4 := if r2.1 then { r2.2 with stop_training := true } else r2.2
      pure { s4 with epoch_count := s4.epoch_count + 1 })
    = Except.ok t := by
  by_cases hch : |(c - p) / p * 100| < 1 / 1000
  · exact ⟨_, osc_tail_conv u ys p c hul hue hp hch⟩
  · by_cases h3 : u.epoch_count > 3
    · have hys2 : 2 ≤ ys.length := by omega
      rcases List.eq_nil_or_concat ys with hnil | ⟨ys1, a1, hys⟩
      · rw [hnil] at hys2
        simp at hys2
      rw [List.concat_eq_append] at hys
      rcases List.eq_nil_or_concat ys1 with hnil | ⟨zs, a2, hzs⟩
      · rw [hys, hnil] at hys2
        simp at hys2
      rw [List.concat_eq_append] at hzs
      rw [hzs] at hys
      have hys_len : ys.length = zs.length + 2 := by
        rw [hys, List.length_append, List.length_append]
        rfl
      obtain ⟨b, v, hosc⟩ := check_oscillation_shape u zs a2 a1 p c
        (by rw [hul, hys]; simp) (by omega)
      cases b
      · have hcv := check_convergence_false { u with loss_convergence := v } ys p c
          (by show u.losses = ys ++ [p, c]; exact hul)
          (by show u.epoch_count = (ys.length : ℤ) + 1; exact hue) hp hch
        refine ⟨{ u with epoch_count := u.epoch_count + 1, loss_convergence := v },
          ?_⟩
        simp only [if_pos h3, hosc, except_bind_ok, except_pure, bool_ite_false, if_true, if_false,
          hcv]
      · have hcv := check_convergence_false
          { u with loss_convergence := v, stop_training := true } ys p c
          (by show u.losses = ys ++ [p, c]; exact hul)
          (by show u.epoch_count = (ys.length : ℤ) + 1; exact hue) hp hch
        refine ⟨{ u with
          epoch_count := u.epoch_count + 1,
          loss_convergence := v,
          stop_training := true }, ?_⟩
        simp only [if_pos h3, hosc, except_bind_ok, except_pure, bool_ite_true,
          hcv, bool_ite_false, if_true, if_false]
    · have hcv := check_convergence_false u ys p c hul hue hp hch
      refine ⟨{ u with epoch_count := u.epoch_count + 1 }, ?_⟩
      simp only [if_neg h3, except_pure, except_bind_ok, hcv, bool_ite_false, if_true, if_false]

/-- Helper: when the convergence criterion fires on a consistent state
with nonzero previous loss, `on_epoch_end` halts training and records the
previous loss in `loss_convergence`. -/
theorem osc_step_conv (s : detect_oscillation_about_minima)
    (xs : List ℚ) (p l : ℚ)
    (hx : s.losses = xs ++ [p])
    (hc : s.epoch_count = (s.losses.length : ℤ))
    (hp : p ≠ 0)
    (hch : |(l - p) / p * 100| < 1 / 1000) :
    s.on_epoch_end l = .ok { s with
      losses := s.losses ++ [l],
      epoch_count := s.epoch_count + 1,
      loss_convergence := p,
      stop_training := true } := by
  have hlen1 : s.losses.length = xs.length + 1 := by
    rw [hx, List.length_append]
    rfl
  have hne : s.epoch_count ≠ 0 := by
    rw [hc, hlen1]
    push_cast
    omega
  have g1 : pyGet (s.losses ++ [l]) (s.epoch_count - 1) = .ok p := by
    rw [hx, List.append_assoc]
    exact pyGet_append (k := 0) (by omega) (by simp)
  have g2 : pyGet (s.losses ++ [l]) s.epoch_count = .ok l := by
    rw [hx, List.append_assoc]
    exact pyGet_append (k := 1) (by omega) (by simp)
  have key := osc_on_epoch_end_eq s l p hne g1 g2
  rw [key]
  by_cases hpl : p = l
  · simp only [if_pos hpl]
    exact osc_tail_conv
      { s with
        losses := s.losses ++ [l],
        loss_convergence := l,
        stop_training := true } xs p l
      (by show s.losses ++ [l] = xs ++ [p, l]; rw [hx]; simp)
      (by show s.epoch_count = (xs.length : ℤ) + 1; omega) hp hch
  · simp only [if_neg hpl]
    exact osc_tail_conv { s with losses := s.losses ++ [l] } xs p l
      (by show s.losses ++ [l] = xs ++ [p, l]; rw [hx]; simp)
      (by show s.epoch_count = (xs.length : ℤ) + 1; omega) hp hch

/-- C6: for `detect_oscillation_about_minima`, on every `on_epoch_end`
call after the first (the state is consistent and at least one loss `p`
is already recorded, so `epoch_count` is nonzero), when the absolute
percentage change `|(l - p) / p * 100|` between the current loss `l` and
the previous loss `p` is strictly below 0.001 (and the division is
meaningful, `p ≠ 0`), training is halted and `loss_convergence` is set to
the previous loss `p`. -/
theorem C6_convergence_halts (s : detect_oscillation_about_minima)
    (xs : List ℚ) (p l : ℚ)
    (hx : s.losses = xs ++ [p])
    (hc : s.epoch_count = (s.losses.length : ℤ))
    (hp : p ≠ 0)
    (hch : |(l - p) / p * 100| < 1 / 1000) :
    s.on_epoch_end l = .ok { s with
      losses := s.losses ++ [l],
      epoch_count := s.epoch_count + 1,
      loss_convergence := p,
      stop_training := true } :=
  osc_step_conv s xs p l hx hc hp hch

/-- Witness for C6 at a concrete state and input. -/
theorem C6_witness :
    detect_oscillation_about_minima.on_epoch_end
        { epoch_count := 1, losses := [1], loss_convergence := 0,
          stop_training := false } 1 =
      .ok { epoch_count := 2, losses := [1, 1], loss_convergence := 1,
            stop_training := true } :=
  C6_convergence_halts
    { epoch_count := 1, losses := [1], loss_convergence := 0,
      stop_training := false } [] 1 1 rfl rfl (by norm_num)
    (by norm_num)

/-- C5 (amended): for `detect_oscillation_about_minima`, on an
`on_epoch_end` call with `epoch_count` greater than 3 from a consistent
state, when the last four recorded losses zigzag
(`losses[n-3] < losses[n-2]`, `losses[n-2] > losses[n-1]`,
`losses[n-1] < losses[n]`, with `n` the current epoch index), training is
halted and `loss_convergence` is set to the arithmetic mean of the last
four losses — PROVIDED the convergence criterion does not also fire on
the same call (and the previous loss is nonzero so the convergence check
does not raise); if it does fire, `loss_convergence` is instead
overwritten with the previous loss (see the C5 counterexample). -/
theorem C5_amended_zigzag_halts (s : detect_oscillation_about_minima)
    (zs : List ℚ) (w x y l : ℚ)
    (hx : s.losses = zs ++ [w, x, y])
    (hc : s.epoch_count = (s.losses.length : ℤ))
    (h3 : s.epoch_count > 3)
    (hz1 : y < l) (hz2 : x > y) (hz3 : w < x)
    (hy : y ≠ 0)
    (hch : ¬ |(l - y) / y * 100| < 1 / 1000) :
    s.on_epoch_end l = .ok { s with
      losses := s.losses ++ [l],
      epoch_count := s.epoch_count + 1,
      loss_convergence := (0 + l + y + x + w) / 4,
      stop_training := true } := by
  have hlen1 : s.losses.length = zs.length + 3 := by
    rw [hx, List.length_append]
    rfl
  have hL : s.losses ++ [l] = zs ++ [w, x, y, l] := by
    rw [hx]
    simp
  have hne : s.epoch_count ≠ 0 := by
    rw [hc, hlen1]
    push_cast
    omega
  have g1 : pyGet (s.losses ++ [l]) (s.epoch_count - 1) = .ok y := by
    rw [hL]
    exact pyGet_append (k := 2) (by omega) (by simp)
  have g2 : pyGet (s.losses ++ [l]) s.epoch_count = .ok l := by
    rw [hL]
    exact pyGet_append (k := 3) (by omega) (by simp)
  have key := osc_on_epoch_end_eq s l y hne g1 g2
  rw [key]
  have hyl : ¬ (y = l) := ne_of_lt hz1
  simp only [if_neg hyl]
  have htail := osc_tail_zig { s with losses := s.losses ++ [l] } zs w x y l
    (by show s.losses ++ [l] = zs ++ [w, x, y, l]; exact hL)
    (by show s.epoch_count = (zs.length : ℤ) + 3; omega)
    (by show s.epoch_count > 3; exact h3) hz1 hz2 hz3 hy
  rw [htail, if_neg hch]

/-- Witness for C5 (amended) at a concrete state and input. -/
theorem C5_amended_witness :
    detect_oscillation_about_minima.on_epoch_end
        { epoch_count := 4, losses := [10, 1, 2, 1], loss_convergence := 0,
          stop_training := false } 2 =
      .ok { epoch_count := 5, losses := [10, 1, 2, 1, 2],
            loss_convergence := (0 + 2 + 1 + 2 + 1) / 4,
            stop_training := true } :=
  C5_amended_zigzag_halts
    { epoch_count := 4, losses := [10, 1, 2, 1], loss_convergence := 0,
      stop_training := false } [10] 1 2 1 2 rfl rfl (by norm_num)
    (by norm_num) (by norm_num) (by norm_num) (by norm_num)
    (by rw [show ((2 : ℚ) - 1) / 1 * 100 = 100 by norm_num]; norm_num)

/-- C5 (counterexample): with losses `[10, 10^6, 2*10^6, 10^6]` and a new
loss `10^6 + 1`, the last four losses zigzag and `epoch_count = 4 > 3`,
so the claim predicts `loss_convergence` equal to their mean; but the
relative change from `10^6` to `10^6 + 1` is also below 0.001%, so the
convergence check overwrites `loss_convergence` with the previous loss
`10^6`, which differs from the mean. -/
theorem C5_counterexample :
    detect_oscillation_about_minima.on_epoch_end
        { epoch_count := 4, losses := [10, 1000000, 2000000, 1000000],
          loss_convergence := 0, stop_training := false } 1000001 =
      .ok { epoch_count := 5,
            losses := [10, 1000000, 2000000, 1000000, 1000001],
            loss_convergence := 1000000, stop_training := true } ∧
      ((1000000 : ℚ) < 1000001 ∧ (2000000 : ℚ) > 1000000 ∧
        (1000000 : ℚ) < 2000000) ∧
      (1000000 : ℚ) ≠ (0 + 1000001 + 1000000 + 2000000 + 1000000) / 4 := by
  refine ⟨?_, ⟨by norm_num, by norm_num, by norm_num⟩, by norm_num⟩
  exact osc_step_conv
    { epoch_count := 4, losses := [10, 1000000, 2000000, 1000000],
      loss_convergence := 0, stop_training := false }
    [10, 1000000, 2000000] 1000000 1000001 rfl rfl (by norm_num)
    (by rw [show ((1000001 : ℚ) - 1000000) / 1000000 * 100 = 1 / 10000 by norm_num,
          abs_of_pos (show (0 : ℚ) < 1 / 10000 by norm_num)]
        norm_num)

/-- One `on_epoch_end` step from a consistent state whose last recorded
loss is nonzero never raises. -/
theorem osc_step_total (s : detect_oscillation_about_minima)
    (xs : List ℚ) (p l : ℚ)
    (hx : s.losses = xs ++ [p])
    (hc : s.epoch_count = (s.losses.length : ℤ))
    (hp : p ≠ 0) :
    ∃ t, s.on_epoch_end l = .ok t := by
  have hlen1 : s.losses.length = xs.length + 1 := by
    rw [hx, List.length_append]
    rfl
  have hne : s.epoch_count ≠ 0 := by
    rw [hc, hlen1]
    push_cast
    omega
  have g1 : pyGet (s.losses ++ [l]) (s.epoch_count - 1) = .ok p := by
    rw [hx, List.append_assoc]
    exact pyGet_append (k := 0) (by omega) (by simp)
  have g2 : pyGet (s.losses ++ [l]) s.epoch_count = .ok l := by
    rw [hx, List.append_assoc]
    exact pyGet_append (k := 1) (by omega) (by simp)
  have key := osc_on_epoch_end_eq s l p hne g1 g2
  by_cases hpl : p = l
  · simp only [if_pos hpl] at key
    obtain ⟨t, ht⟩ := osc_tail_total
      { s with
        losses := s.losses ++ [l],
        loss_convergence := l,
        stop_training := true } xs p l
      (by show s.losses ++ [l] = xs ++ [p, l]; rw [hx]; simp)
      (by show s.epoch_count = (xs.length : ℤ) + 1; omega) hp
    exact ⟨t, key.trans ht⟩
  · simp only [if_neg hpl] at key
    obtain ⟨t, ht⟩ := osc_tail_total { s with losses := s.losses ++ [l] } xs p l
      (by show s.losses ++ [l] = xs ++ [p, l]; rw [hx]; simp)
      (by show s.epoch_count = (xs.length : ℤ) + 1; omega) hp
    exact ⟨t, key.trans ht⟩

/-- A whole run of `detect_oscillation_about_minima` from a fresh state
never raises, provided every reported loss is nonzero. -/
theorem osc_run_total (ls : List ℚ) : ∀ s : detect_oscillation_about_minima,
    s.epoch_count = (s.losses.length : ℤ) →
    (∀ q ∈ s.losses, q ≠ 0) → (∀ q ∈ ls, q ≠ 0) →
    ∃ t, detect_oscillation_about_minima.run s ls = .ok t := by
  induction ls with
  | nil => exact fun s _ _ _ => ⟨s, rfl⟩
  | cons l ls ih =>
    intro s hc hs hl
    have hstep : ∃ u, s.on_epoch_end l = .ok u := by
      rcases List.eq_nil_or_concat s.losses with hnil | ⟨xs, p, hx⟩
      · exact ⟨_, osc_on_epoch_end_zero s l (by rw [hc, hnil]; rfl)⟩
      · rw [List.concat_eq_append] at hx
        have hp : p ≠ 0 := hs p (by rw [hx]; simp)
        exact osc_step_total s xs p l hx hc hp
    obtain ⟨u, hu⟩ := hstep
    obtain ⟨hul, hue⟩ := osc_on_epoch_end_append s u l hu
    have huc : u.epoch_count = (u.losses.length : ℤ) := by
      rw [hue, hul, hc, List.length_append, List.length_cons, List.length_nil]
      push_cast
      ring
    obtain ⟨t, ht⟩ := ih u huc
      (by
        rw [hul]
        intro q hq
        rcases List.mem_append.mp hq with hq | hq
        · exact hs q hq
        · rw [List.mem_singleton.mp hq]
          exact hl l (List.mem_cons_self l ls))
      (fun q hq => hl q (List.mem_cons_of_mem _ hq))
    exact ⟨t, by simp [detect_oscillation_about_minima.run, hu, except_bind_ok, ht]⟩

/-- Any successful sequence of `on_epoch_end` calls appends the reported
losses in order and advances `epoch_count` by their number. -/
theorem osc_run_shape (ls : List ℚ) : ∀ (s t : detect_oscillation_about_minima),
    detect_oscillation_about_minima.run s ls = .ok t →
    t.epoch_count = s.epoch_count + ls.length ∧ t.losses = s.losses ++ ls := by
  induction ls with
  | nil =>
    intro s t h
    have h' := Except.ok.inj h
    rw [h']
    simp
  | cons l ls ih =>
    intro s t h
    unfold detect_oscillation_about_minima.run at h
    obtain ⟨u, hu, h⟩ := except_bind_eq_ok h
    obtain ⟨hue, hul⟩ := ih u t h
    obtain ⟨hsl, hse⟩ := osc_on_epoch_end_append s u l hu
    constructor
    · rw [hue, hse, List.length_cons]
      push_cast
      ring
    · rw [hul, hsl, List.append_assoc]
      rfl

/-- C9: if, after a training run of at least one completed epoch,
`on_train_begin` is invoked a second time on the same
`detect_oscillation_about_minima` instance (a second `fit`), the next
`on_epoch_end` call raises an IndexError: `on_train_begin` clears
`losses` but does not reset `epoch_count`, so the read
`losses[epoch_count]` (or `losses[epoch_count - 1]`) is out of range. -/
theorem C9_second_fit_index_error (ls : List ℚ)
    (s : detect_oscillation_about_minima) (l : ℚ)
    (hne : ls ≠ [])
    (hrun : detect_oscillation_about_minima.run
      detect_oscillation_about_minima.init.on_train_begin ls = .ok s) :
    s.on_train_begin.on_epoch_end l = .error "IndexError" := by
  obtain ⟨hse, _⟩ := osc_run_shape ls _ s hrun
  have hect : s.epoch_count = (ls.length : ℤ) := by
    rw [hse]
    norm_num [detect_oscillation_about_minima.init,
      detect_oscillation_about_minima.on_train_begin]
  have hlen : 1 ≤ ls.length := by
    cases ls with
    | nil => exact absurd rfl hne
    | cons a as => simp
  set u := s.on_train_begin with hu
  have hul : u.losses = [] := rfl
  have huc : u.epoch_count = (ls.length : ℤ) := hect
  have hune : u.epoch_count ≠ 0 := by
    rw [huc]
    omega
  unfold detect_oscillation_about_minima.on_epoch_end
  simp only at *
  rw [if_pos hune]
  by_cases h1 : u.epoch_count = 1
  · have g1 : pyGet (u.losses ++ [l]) (u.epoch_count - 1) = .ok l := by
      rw [hul, h1]
      exact pyGet_append (k := 0) (by simp) (by simp)
    have g2 : pyGet (u.losses ++ [l]) u.epoch_count = .error "IndexError" := by
      apply pyGet_oob_high
      rw [hul, h1]
      simp
    simp only [hul, List.nil_append] at g1 g2 ⊢
    simp only [g1, except_bind_ok, g2, except_bind_error]
  · have g1 : pyGet (u.losses ++ [l]) (u.epoch_count - 1) = .error "IndexError" := by
      apply pyGet_oob_high
      rw [hul, huc]
      simp only [List.nil_append, List.length_cons, List.length_nil]
      push_cast
      have : u.epoch_count ≠ 1 := h1
      rw [huc] at this
      omega
    simp only [hul, List.nil_append] at g1 ⊢
    simp only [g1, except_bind_error]

/-- Witness for C9: a one-epoch run, a second `on_train_begin`, then
`on_epoch_end` raises. -/
theorem C9_witness :
    (detect_oscillation_about_minima.on_train_begin
      { epoch_count := 1, losses := [1], loss_convergence := 0,
        stop_training := false }).on_epoch_end 2 = .error "IndexError" :=
  C9_second_fit_index_error [1]
    { epoch_count := 1, losses := [1], loss_convergence := 0,
      stop_training := false } 2 (by simp) (by decide)

/-- C2 (counterexample): `increment_in_loss.on_train_end` DOES remove
entries from `losses`: from five recorded losses and threshold 3 it
removes `[5]`, `[3]` and `[1]` (every other entry from the end), leaving
`[2, 4]` — so the loss history is not append-only across all lifecycle
hooks other than `on_train_begin`. -/
theorem C2_counterexample_on_train_end_removes :
    increment_in_loss.on_train_end
        { threshold := 3, epoch_count := 5, error_count := 0,
          losses := [1, 2, 3, 4, 5], stop_training := false } =
      .ok { threshold := 3, epoch_count := 2, error_count := 0,
            losses := [2, 4], stop_training := false } := by
  decide

/-- C2 (amended): the loss history is append-only across the per-epoch and
per-batch hooks — each normal return of `on_epoch_end`/`on_batch_end`
appends exactly the reported loss — while `on_train_begin` resets it to
`[]` and `increment_in_loss.on_train_end` removes entries. -/
theorem C2_amended_append_only :
    (∀ (s t : detect_oscillation_about_minima) (l : ℚ),
      s.on_epoch_end l = .ok t → t.losses = s.losses ++ [l]) ∧
    (∀ (s t : increment_in_loss) (l : ℚ),
      s.on_epoch_end l = .ok t → t.losses = s.losses ++ [l]) ∧
    (∀ (s : loss_after_each_batch) (l : ℚ),
      (s.on_batch_end l).losses = s.losses ++ [l]) := by
  refine ⟨?_, ?_, ?_⟩
  · intro s t l h
    exact (osc_on_epoch_end_append s t l h).1
  · intro s t l h
    exact (inc_on_epoch_end_append s t l h).1
  · intro s l
    rfl

/-- Witness for C2 (amended) at a concrete state and input. -/
theorem C2_amended_witness :
    ({ epoch_count := 1, losses := [1], loss_convergence := 0,
       stop_training := false } : detect_oscillation_about_minima).losses =
      detect_oscillation_about_minima.init.losses ++ [1] :=
  C2_amended_append_only.1 detect_oscillation_about_minima.init _ 1 (by decide)

/-! The pop loop of `increment_in_loss.on_train_end`. -/

theorem pyPop_negIdx {ls : List ℚ} {i : ℤ} (h0 : i < 0) (h1 : 0 ≤ i + (ls.length : ℤ)) :
    pyPop ls i =
      .ok (ls.getD (i + ls.length).toNat 0, ls.eraseIdx (i + ls.length).toNat) := by
  have h2 : i + (ls.length : ℤ) < (ls.length : ℤ) := by omega
  simp [pyPop, h0, h1, h2]

theorem pyPop_length {ls : List ℚ} {i : ℤ} {pr : ℚ × List ℚ}
    (h : pyPop ls i = .ok pr) : pr.2.length + 1 = ls.length := by
  unfold pyPop at h
  simp only at h
  by_cases hi : i < 0
  · simp only [if_pos hi] at h
    by_cases hc : (0 : ℤ) ≤ i + (ls.length : ℤ) ∧ i + (ls.length : ℤ) < (ls.length : ℤ)
    · simp only [if_pos hc] at h
      have h' := Except.ok.inj h
      rw [← h']
      show (ls.eraseIdx (i + (ls.length : ℤ)).toNat).length + 1 = ls.length
      rw [List.length_eraseIdx_of_lt (by omega)]
      omega
    · simp only [if_neg hc] at h
      exact absurd h (by simp)
  · simp only [if_neg hi] at h
    by_cases hc : (0 : ℤ) ≤ i ∧ i < (ls.length : ℤ)
    · simp only [if_pos hc] at h
      have h' := Except.ok.inj h
      rw [← h']
      show (ls.eraseIdx i.toNat).length + 1 = ls.length
      rw [List.length_eraseIdx_of_lt (by omega)]
      omega
    · simp only [if_neg hc] at h
      exact absurd h (by simp)

/-- Each iteration `x` of the Python loop pops the element at original
position `len - 1 - x - 2·(iterations already done)`; unrolling the whole
loop erases positions `len-1, len-3, ...` in that order. -/
theorem pop_loop_spec : ∀ (n x : ℕ) (ls : List ℚ), x + 2 * n ≤ ls.length + 1 →
    increment_in_loss.pop_loop ls (x : ℤ) n =
      .ok ((List.range n).foldl
        (fun acc k => acc.eraseIdx (ls.length - 1 - x - 2 * k)) ls) := by
  intro n
  induction n with
  | zero =>
    intro x ls h
    simp [increment_in_loss.pop_loop]
  | succ n ih =>
    intro x ls h
    have hx1 : x + 1 ≤ ls.length := by omega
    have hplt : ls.length - 1 - x < ls.length := by omega
    have hpop : pyPop ls (-(x : ℤ) - 1) =
        .ok (ls.getD (ls.length - 1 - x) 0, ls.eraseIdx (ls.length - 1 - x)) := by
      have h0 : (-(x : ℤ) - 1) < 0 := by omega
      have h1 : 0 ≤ (-(x : ℤ) - 1) + (ls.length : ℤ) := by omega
      rw [pyPop_negIdx h0 h1]
      have ht : ((-(x : ℤ) - 1) + (ls.length : ℤ)).toNat = ls.length - 1 - x := by
        omega
      rw [ht]
    have herase : (ls.eraseIdx (ls.length - 1 - x)).length = ls.length - 1 :=
      List.length_eraseIdx_of_lt hplt
    unfold increment_in_loss.pop_loop
    simp only [hpop, except_bind_ok]
    have hcast : (x : ℤ) + 1 = ((x + 1 : ℕ) : ℤ) := by push_cast; ring
    rw [hcast, ih (x + 1) (ls.eraseIdx (ls.length - 1 - x)) (by omega)]
    congr 1
    rw [List.range_succ_eq_map, List.foldl_cons, List.foldl_map]
    have hfun : (fun (acc : List ℚ) (k : ℕ) =>
        acc.eraseIdx ((ls.eraseIdx (ls.length - 1 - x)).length - 1 - (x + 1) - 2 * k)) =
        fun (acc : List ℚ) (k : ℕ) =>
          acc.eraseIdx (ls.length - 1 - x - 2 * Nat.succ k) := by
      funext acc k
      congr 1
      rw [herase]
      omega
    rw [hfun]
    congr 1

theorem pop_loop_length : ∀ (n : ℕ) (x : ℤ) (ls r : List ℚ),
    increment_in_loss.pop_loop ls x n = .ok r → r.length = ls.length - n := by
  intro n
  induction n with
  | zero =>
    intro x ls r h
    have h' := Except.ok.inj h
    rw [← h']
    rfl
  | succ n ih =>
    intro x ls r h
    unfold increment_in_loss.pop_loop at h
    obtain ⟨pr, hp, h⟩ := except_bind_eq_ok h
    have hr := ih (x + 1) pr.2 r h
    have hlen := pyPop_length hp
    omega

/-- Helper: full characterization of `increment_in_loss.on_train_end`
under the claim precondition on the list length (`t` is the number of
loop iterations, `threshold.toNat`). -/
theorem inc_on_train_end_spec (s : increment_in_loss) (t : ℕ)
    (htn : s.threshold.toNat = t)
    (hlen : 2 * t ≤ s.losses.length + 1) :
    ∃ s', s.on_train_end = .ok s' ∧
      s'.epoch_count = s.epoch_count - s.threshold ∧
      s'.losses = (List.range t).foldl
        (fun acc k => acc.eraseIdx (s.losses.length - 1 - 2 * k)) s.losses ∧
      s'.losses.length = s.losses.length - t ∧
      s'.threshold = s.threshold ∧
      s'.error_count = s.error_count ∧
      s'.stop_training = s.stop_training := by
  have hloop := pop_loop_spec t 0 s.losses (by omega)
  have hfun : (fun (acc : List ℚ) (k : ℕ) =>
      acc.eraseIdx (s.losses.length - 1 - 0 - 2 * k)) =
      fun (acc : List ℚ) (k : ℕ) => acc.eraseIdx (s.losses.length - 1 - 2 * k) := by
    funext acc k
    congr 1
  rw [hfun] at hloop
  have hlength := pop_loop_length t 0 s.losses _ hloop
  refine ⟨{ s with
      epoch_count := s.epoch_count - s.threshold,
      losses := (List.range t).foldl
        (fun acc k => acc.eraseIdx (s.losses.length - 1 - 2 * k)) s.losses },
    ?_, rfl, rfl, hlength, rfl, rfl, rfl⟩
  unfold increment_in_loss.on_train_end
  simp only [htn]
  have hloop' : increment_in_loss.pop_loop s.losses 0 t =
      .ok ((List.range t).foldl
        (fun acc k => acc.eraseIdx (s.losses.length - 1 - 2 * k)) s.losses) :=
    hloop
  simp only [hloop', except_bind_ok]

/-- C10: `increment_in_loss.on_train_end` pops negative indices
`-1, -2, ..., -threshold` from the shrinking list, so with
`len(losses) = L ≥ 2*threshold - 1` it erases the elements at original
positions `L-1, L-3, ..., L-(2*threshold-1)` (every other element from
the end, erased in that order), leaving `L - threshold` entries, and it
decreases `epoch_count` by `threshold`. -/
theorem C10_on_train_end_pops (s : increment_in_loss) (t : ℕ)
    (hτ : s.threshold = (t : ℤ))
    (hlen : 2 * t ≤ s.losses.length + 1) :
    ∃ s', s.on_train_end = .ok s' ∧
      s'.epoch_count = s.epoch_count - t ∧
      s'.losses = (List.range t).foldl
        (fun acc k => acc.eraseIdx (s.losses.length - 1 - 2 * k)) s.losses ∧
      s'.losses.length = s.losses.length - t ∧
      s'.threshold = s.threshold ∧
      s'.error_count = s.error_count ∧
      s'.stop_training = s.stop_training := by
  obtain ⟨s', h1, h2, h3, h4, h5, h6, h7⟩ :=
    inc_on_train_end_spec s t (by omega) hlen
  exact ⟨s', h1, by rw [h2, hτ], h3, h4, h5, h6, h7⟩

/-- Witness for C10 at a concrete state: threshold 3 on five recorded
losses leaves `[2, 4]`. -/
theorem C10_witness :
    ∃ s', increment_in_loss.on_train_end
        { threshold := 3, epoch_count := 5, error_count := 0,
          losses := [1, 2, 3, 4, 5], stop_training := false } = .ok s' ∧
      s'.epoch_count = (5 : ℤ) - (3 : ℕ) ∧
      s'.losses = (List.range 3).foldl
        (fun acc k => acc.eraseIdx (([1, 2, 3, 4, 5] : List ℚ).length - 1 - 2 * k))
        [1, 2, 3, 4, 5] ∧
      s'.losses.length = ([1, 2, 3, 4, 5] : List ℚ).length - 3 ∧
      s'.threshold = (3 : ℤ) ∧
      s'.error_count = (0 : ℤ) ∧
      s'.stop_training = false :=
  C10_on_train_end_pops
    { threshold := 3, epoch_count := 5, error_count := 0,
      losses := [1, 2, 3, 4, 5], stop_training := false } 3 rfl (by norm_num)

/-! Totality of the `increment_in_loss` per-epoch hook. -/

theorem inc_run_total (ls : List ℚ) : ∀ s : increment_in_loss,
    s.epoch_count = (s.losses.length : ℤ) →
    ∃ t, increment_in_loss.run s ls = .ok t ∧
      t.losses = s.losses ++ ls ∧ t.threshold = s.threshold := by
  induction ls with
  | nil => exact fun s _ => ⟨s, rfl, by simp, rfl⟩
  | cons l ls ih =>
    intro s hc
    have hstep : ∃ u, s.on_epoch_end l = .ok u := by
      rcases List.eq_nil_or_concat s.losses with hnil | ⟨xs, p, hx⟩
      · exact ⟨_, inc_on_epoch_end_zero s l (by rw [hc, hnil]; rfl)⟩
      · rw [List.concat_eq_append] at hx
        have hc' : s.epoch_count = (xs.length : ℤ) + 1 := by
          rw [hc, hx, List.length_append, List.length_cons, List.length_nil]
          push_cast
          ring
        by_cases hql : p < l
        · exact ⟨_, inc_on_epoch_end_up s xs p l hx hc' hql⟩
        · exact ⟨_, inc_on_epoch_end_down s xs p l hx hc' hql⟩
    obtain ⟨u, hu⟩ := hstep
    obtain ⟨hul, hue⟩ := inc_on_epoch_end_append s u l hu
    have hut : u.threshold = s.threshold := by
      rcases List.eq_nil_or_concat s.losses with hnil | ⟨xs, p, hx⟩
      · rw [inc_on_epoch_end_zero s l (by rw [hc, hnil]; rfl)] at hu
        rw [← Except.ok.inj hu]
      · rw [List.concat_eq_append] at hx
        have hc' : s.epoch_count = (xs.length : ℤ) + 1 := by
          rw [hc, hx, List.length_append, List.length_cons, List.length_nil]
          push_cast
          ring
        by_cases hql : p < l
        · rw [inc_on_epoch_end_up s xs p l hx hc' hql] at hu
          rw [← Except.ok.inj hu]
        · rw [inc_on_epoch_end_down s xs p l hx hc' hql] at hu
          rw [← Except.ok.inj hu]
    have huc : u.epoch_count = (u.losses.length : ℤ) := by
      rw [hue, hul, hc, List.length_append, List.length_cons, List.length_nil]
      push_cast
      ring
    obtain ⟨t, ht, htl, htt⟩ := ih u huc
    refine ⟨t, ?_, ?_, by rw [htt, hut]⟩
    · simp [increment_in_loss.run, hu, except_bind_ok, ht]
    · rw [htl, hul, List.append_assoc]
      rfl

/-- C3 (counterexample): a loss of exactly 0 is a well-formed numeric
value, yet feeding losses `[0, 1]` to a fresh
`detect_oscillation_about_minima` raises ZeroDivisionError on the second
epoch: `check_convergence` divides by the previous loss. -/
theorem C3_counterexample_zero_loss :
    detect_oscillation_about_minima.run
      detect_oscillation_about_minima.init.on_train_begin [0, 1] =
      .error "ZeroDivisionError" := by
  decide

/-- C3 (amended): no lifecycle hook raises, provided — beyond the losses
being well-formed numbers — that each run starts from a fresh callback,
that every loss reported to `detect_oscillation_about_minima` is nonzero
(its convergence check divides by the previous loss), and that
`increment_in_loss.on_train_end` is only invoked once at least
`2*threshold - 1` epochs have been recorded (its pop loop reaches index
`-(2*threshold - 1)`).  The `loss_after_each_batch` hooks contain no
indexing or division and are total functions of the embedding. -/
theorem C3_amended_no_raise :
    (∀ ls : List ℚ, (∀ q ∈ ls, q ≠ 0) →
      ∃ t, detect_oscillation_about_minima.run
        detect_oscillation_about_minima.init.on_train_begin ls = .ok t) ∧
    (∀ (τ : ℤ) (ls : List ℚ),
      ∃ t, increment_in_loss.run ((increment_in_loss.init τ).on_train_begin) ls =
          .ok t ∧
        (2 * τ.toNat ≤ ls.length + 1 → ∃ u, t.on_train_end = .ok u)) := by
  constructor
  · intro ls hnz
    exact osc_run_total ls _ rfl
      (by
        intro q hq
        simp [detect_oscillation_about_minima.init,
          detect_oscillation_about_minima.on_train_begin] at hq) hnz
  · intro τ ls
    obtain ⟨t, ht, htl, htt⟩ := inc_run_total ls ((increment_in_loss.init τ).on_train_begin) rfl
    refine ⟨t, ht, ?_⟩
    intro hlen
    have htl' : t.losses.length = ls.length := by
      rw [htl]
      rfl
    obtain ⟨u, hu, _⟩ := inc_on_train_end_spec t τ.toNat
      (by rw [htt]; rfl) (by omega)
    exact ⟨u, hu⟩

/-- Witness for C3 (amended) at concrete inputs. -/
theorem C3_amended_witness :
    (∃ t, detect_oscillation_about_minima.run
      detect_oscillation_about_minima.init.on_train_begin [1, 2] = .ok t) ∧
    (∃ t, increment_in_loss.run ((increment_in_loss.init 3).on_train_begin)
        [1, 2, 3, 4, 5] = .ok t ∧
      (2 * (3 : ℤ).toNat ≤ ([1, 2, 3, 4, 5] : List ℚ).length + 1 →
        ∃ u, t.on_train_end = .ok u)) :=
  ⟨C3_amended_no_raise.1 [1, 2] (by norm_num),
    C3_amended_no_raise.2 3 [1, 2, 3, 4, 5]⟩

/-- Witness for C1 (amended) at concrete inputs. -/
theorem C1_amended_witness :
    ∃ s', increment_in_loss.run ((increment_in_loss.init 3).on_train_begin)
        ([] ++ [1, 2, 3, 4]) = .ok s' ∧ s'.stop_training = true :=
  C1_amended_strict_increase [] 1 2 3 4 (by norm_num) (by norm_num) (by norm_num)

/-- C4: for every callback that defines `on_train_begin`, and from every
prior state of the callback, calling `on_train_begin` leaves the `losses`
sequence equal to the empty list. -/
theorem C4_on_train_begin_clears_losses :
    ∀ (s₁ : detect_oscillation_about_minima) (s₂ : increment_in_loss)
      (s₃ : loss_after_each_batch),
      s₁.on_train_begin.losses = [] ∧ s₂.on_train_begin.losses = [] ∧
        s₃.on_train_begin.losses = [] := by
  intro s₁ s₂ s₃
  exact ⟨rfl, rfl, rfl⟩

/-- C7: for `loss_after_each_batch`, after `on_train_begin` followed by `n`
calls to `on_batch_end` with loss values `m_1, ..., m_n`, the `losses`
sequence equals exactly `[m_1, ..., m_n]` in call order, one entry per
batch. -/
theorem C7_batch_losses_exact :
    ∀ (s : loss_after_each_batch) (ms : List ℚ),
      (loss_after_each_batch.run s.on_train_begin ms).losses = ms := by
  intro s ms
  rw [batch_run_losses]
  rfl

/-- C8: every lifecycle hook of every callback is deterministic: two
invocations of the same hook from equal callback states with equal
arguments produce equal results (resulting state, raised exception, and
the embedded stop-training flag alike). -/
theorem C8_hooks_deterministic :
    ∀ (s t : detect_oscillation_about_minima) (u v : increment_in_loss)
      (b c : loss_after_each_batch) (l m : ℚ),
      s = t → u = v → b = c → l = m →
      s.on_epoch_end l = t.on_epoch_end m ∧
        s.on_train_begin = t.on_train_begin ∧
        u.on_epoch_end l = v.on_epoch_end m ∧
        u.on_train_begin = v.on_train_begin ∧
        u.on_train_end = v.on_train_end ∧
        b.on_batch_end l = c.on_batch_end m ∧
        b.on_train_begin = c.on_train_begin := by
  rintro s t u v b c l m rfl rfl rfl rfl
  exact ⟨rfl, rfl, rfl, rfl, rfl, rfl, rfl⟩

/-- Witness for C8 at concrete states and arguments. -/
theorem C8_witness :
    detect_oscillation_about_minima.init.on_epoch_end 1 =
        detect_oscillation_about_minima.init.on_epoch_end 1 ∧
      detect_oscillation_about_minima.init.on_train_begin =
        detect_oscillation_about_minima.init.on_train_begin ∧
      (increment_in_loss.init 3).on_epoch_end 1 =
        (increment_in_loss.init 3).on_epoch_end 1 ∧
      (increment_in_loss.init 3).on_train_begin =
        (increment_in_loss.init 3).on_train_begin ∧
      (increment_in_loss.init 3).on_train_end =
        (increment_in_loss.init 3).on_train_end ∧
      (⟨[]⟩ : loss_after_each_batch).on_batch_end 1 =
        (⟨[]⟩ : loss_after_each_batch).on_batch_end 1 ∧
      (⟨[]⟩ : loss_after_each_batch).on_train_begin =
        (⟨[]⟩ : loss_after_each_batch).on_train_begin :=
  C8_hooks_deterministic _ _ _ _ _ _ _ _ rfl rfl rfl rfl

end Callbacks
